import Mathlib

/-!
Verification of the secretvaults client core: the value-level secret-sharing
transform (ShareCodec), the document allotment walk (Allotter), the multi-node
fan-out/fan-in bookkeeping (createMany / readMany / aggregation), the
owned-document access-control model, the delegation-token minting chain, and
the query poll-loop backoff schedule.

Components whose executable code is not part of the repository snapshot
(the nilql ShareCodec, the Allotter, the cluster coordinator and the access
controller) are modelled from the specification, as marked in their doc
comments; everything else is translated from the repository's Python sources.
-/

/-- Modelled from the spec: the finite field modulus for the additive
integer secret-sharing scheme (ShareCodec, spec section 4.1).  The spec fixes
only that the scheme is additive over a finite field with exact integer
arithmetic; we take the smallest prime above the 32-bit domain. -/
def secretModulus : Nat := 4294967311

/-- A primitive secret value: an integer in the field's domain or an opaque
byte string (the UTF-8 encoding of a string). -/
inductive Prim where
  | pint (v : Nat)
  | pstr (bs : List Nat)
deriving DecidableEq

/-- The domain condition of the spec: integers lie in the field's numeric
domain; strings are unrestricted opaque byte sequences. -/
def PrimInRange : Prim → Prop
  | .pint v => v < secretModulus
  | .pstr _ => True

/-- Modelled from the spec: masks for the additive integer scheme, drawn from
a randomness stream `s` starting at offset `off`, reduced into the field. -/
def maskList (s : Nat → Nat) (off k : Nat) : List Nat :=
  (List.range k).map (fun i => s (off + i) % secretModulus)

/-- Modelled from the spec: additive shares of an integer `v`; the masks are
the first shares and the last share completes the sum to `v` modulo the
field modulus (integer arithmetic only, no floating point). -/
def intShares (masks : List Nat) (v : Nat) : List Nat :=
  masks ++ [(v + (masks.map (fun r => secretModulus - r)).sum) % secretModulus]

/-- Pointwise XOR of two byte strings (the string scheme's group operation). -/
def xorBytes (a b : List Nat) : List Nat :=
  List.zipWith (fun x y => x ^^^ y) a b

/-- Modelled from the spec: one random byte mask of length `len` drawn from
the randomness stream at offset `off`. -/
def byteMask (s : Nat → Nat) (off len : Nat) : List Nat :=
  (List.range len).map (fun j => s (off + j) % 256)

/-- Modelled from the spec: `k` independent byte masks for a string of length
`len`. -/
def strMasks (s : Nat → Nat) (off k len : Nat) : List (List Nat) :=
  (List.range k).map (fun i => byteMask s (off + i * len) len)

/-- Modelled from the spec: XOR shares of a byte string; the masks are the
first shares and the last share is the string XORed with every mask. -/
def strShares (masks : List (List Nat)) (bs : List Nat) : List (List Nat) :=
  masks ++ [masks.foldl xorBytes bs]

/-- Modelled from the spec (ShareCodec.split): split one primitive value into
`n` ordered shares, consuming randomness from stream `s` at offset `off`;
the additive field scheme for integers, the XOR scheme for strings. -/
def ShareCodec.split (n : Nat) (s : Nat → Nat) (off : Nat) : Prim → List Prim
  | .pint v => (intShares (maskList s off (n - 1)) v).map .pint
  | .pstr bs => (strShares (strMasks s off (n - 1) bs.length) bs).map .pstr

/-- Collect the integer payloads of a share list, failing on a mixed-kind
share set (ShareSetMismatch). -/
def allInts : List Prim → Option (List Nat)
  | [] => some []
  | .pint v :: rest => (allInts rest).map (v :: ·)
  | .pstr _ :: _ => none

/-- Fold the XOR group operation over a nonempty share list. -/
def combineStrList : List (List Nat) → List Nat
  | [] => []
  | bs :: rest => rest.foldl xorBytes bs

/-- Collect the byte-string payloads of a share list. -/
def allBytes : List Prim → Option (List (List Nat))
  | [] => some []
  | .pstr bs :: rest => (allBytes rest).map (bs :: ·)
  | .pint _ :: _ => none

/-- Modelled from the spec (ShareCodec.combine): combine an ordered share set
back into the value, using the inverse group operation of the scheme that
produced it; an empty or mixed-kind share set fails. -/
def ShareCodec.combine (shares : List Prim) : Option Prim :=
  match shares with
  | [] => none
  | .pint _ :: _ => (allInts shares).map (fun vs => .pint (vs.sum % secretModulus))
  | .pstr _ :: _ => (allBytes shares).map (fun ss => .pstr (combineStrList ss))

/-- Python's int() conversion applied to a real-valued clock reading:
truncation toward zero (floor for nonnegative arguments, ceiling for
negative ones). -/
def pyInt (q : Rat) : Int :=
  if 0 ≤ q then ⌊q⌋ else ⌈q⌉

/-- From src/src/secretvaults/common/utils.py: into_seconds_from_now returns
int(time.time() + seconds); the clock reading `t` at the moment of the call
is passed explicitly. -/
def into_seconds_from_now (t : Rat) (seconds : Int) : Int :=
  pyInt (t + (seconds : Rat))

/-- A delegation token as visible at this layer (spec section 3): the
audience principal, the authorized command class and the expiry instant in
whole Unix seconds. -/
structure NucToken where
  audience : String
  command : List String
  expiresAt : Int
deriving DecidableEq

/-- Builder state for the NucTokenBuilder chain used in
src/examples/owned_data_example.py lines 150-156. -/
structure NucTokenBuilder where
  root : NucToken
  cmd : List String
  aud : String
  expiry : Int

/-- Start a builder extending the given root token envelope. -/
def NucTokenBuilder.extending (root : NucToken) : NucTokenBuilder :=
  ⟨root, [], "", 0⟩

/-- Set the authorized command of the token being built. -/
def NucTokenBuilder.command (b : NucTokenBuilder) (c : List String) : NucTokenBuilder :=
  { b with cmd := c }

/-- Set the audience principal of the token being built. -/
def NucTokenBuilder.audience (b : NucTokenBuilder) (a : String) : NucTokenBuilder :=
  { b with aud := a }

/-- Set the expiry instant of the token being built. -/
def NucTokenBuilder.expires_at (b : NucTokenBuilder) (e : Int) : NucTokenBuilder :=
  { b with expiry := e }

/-- Finish the builder chain and produce the token. -/
def NucTokenBuilder.build (b : NucTokenBuilder) : NucToken :=
  ⟨b.aud, b.cmd, b.expiry⟩

/-- The delegation-minting chain of src/examples/owned_data_example.py lines
150-156: extend the builder's root token, set the command class, the
audience and an expiry of into_seconds_from_now(ttl), and build. -/
def mintDelegation (root : NucToken) (aud : String) (cmd : List String)
    (ttl : Int) (t : Rat) : NucToken :=
  ((((NucTokenBuilder.extending root).command cmd).audience aud).expires_at
    (into_seconds_from_now t ttl)).build

/-- Modelled from the spec: a delegation token is valid at time `now` by
time comparison against its expiry only; the token carries no revocation
channel. -/
def tokenValid (tok : NucToken) (now : Rat) : Bool :=
  decide (now ≤ (tok.expiresAt : Rat))

/-- The retry intervals of the poll loop in
src/examples/interactive_demo.py (run_query): 3, 5, 10, 30, then 60
seconds. -/
def retryIntervals : List Nat := [3, 5, 10, 30, 60]

/-- One wait computation of the poll loop: while the interval index is
within the list the loop waits that entry and increments the index;
afterwards it waits the constant 60-second plateau. -/
def pollWaitStep (i : Nat) : Nat × Nat :=
  if i < retryIntervals.length then (retryIntervals.getD i 60, i + 1) else (60, i)

/-- The interval index held by the loop when computing the k-th wait (the
index starts at 0 and is advanced by every wait, in the normal and in the
error path alike). -/
def pollIdx : Nat → Nat
  | 0 => 0
  | k + 1 => (pollWaitStep (pollIdx k)).2

/-- The k-th wait interval of the poll loop (k = 0 is the wait following
the first poll attempt). -/
def waitSeq (k : Nat) : Nat :=
  (pollWaitStep (pollIdx k)).1

/-- One node's outcome of a batch write as inspected by
src/examples/data_create_read.py: item.get("result") is absent when the node
failed, and item["result"]["data"]["created"] lists the identities the node
created. -/
structure NodeWriteResult where
  result : Option (List String)

/-- The created-id extraction of src/examples/data_create_read.py lines
58-66: the set of created ids collected over every node whose write produced
a result, with one entry per distinct id. -/
def extractNewIds (results : List NodeWriteResult) : List String :=
  (results.foldr (fun item acc => item.result.getD [] ++ acc) []).dedup

/-- An ACL entry: grantee identity plus read/write/execute flags (spec
section 3). -/
structure AclEntry where
  grantee : String
  read : Bool
  write : Bool
  execute : Bool
deriving DecidableEq

/-- Modelled from the spec: an owned document's access-control state — the
owning principal and the list of ACL entries. -/
structure OwnedDoc where
  owner : String
  acl : List AclEntry
deriving DecidableEq

/-- Modelled from the spec: creation of an owned document sets the owner and
starts with an empty ACL. -/
def createOwned (owner : String) : OwnedDoc :=
  ⟨owner, []⟩

/-- Modelled from the spec: grant(entry) appends exactly one ACL entry. -/
def grantAcl (d : OwnedDoc) (e : AclEntry) : OwnedDoc :=
  { d with acl := d.acl ++ [e] }

/-- Modelled from the spec: revoke(granteeId) removes every ACL entry held
for that grantee. -/
def revokeAcl (d : OwnedDoc) (g : String) : OwnedDoc :=
  { d with acl := d.acl.filter (fun e => decide (e.grantee ≠ g)) }

/-- Modelled from the spec: an ACL mutation is broadcast identically to all
N nodes' copies of the document. -/
def broadcastDoc (f : OwnedDoc → OwnedDoc) (nodes : List OwnedDoc) : List OwnedDoc :=
  nodes.map f

/-- Modelled from the spec: an ACL mutation request (grantAccess carries an
entry, revokeAccess carries the grantee), sent unchanged to every node. -/
structure AclRequest where
  collection : String
  document : String
  grantee : String
  isGrant : Bool
deriving DecidableEq

/-- Modelled from the spec: broadcast the identical ACL mutation to all N
nodes; the per-node result map pairs every node id with the HTTP status that
node returned for exactly this request, dropping none. -/
def broadcastAclRequest (req : AclRequest) (nodes : List String)
    (nodeStatus : String → AclRequest → Nat) : List (String × Nat) :=
  nodes.map (fun nid => (nid, nodeStatus nid req))

/-- The overall-failure test of src/examples/interactive_demo.py
(grant_access and revoke_access): the operation failed if some node returned
a status other than 204. -/
def hasErrors (resp : List (String × Nat)) : Bool :=
  resp.any (fun r => r.2 != 204)

/-- Modelled from the spec: the share matrix for values v1..vk — row i holds
the n additive shares of the i-th value, each row drawing its masks from its
own stretch of the randomness stream. -/
def shareMatrix (n : Nat) (s : Nat → Nat) (vals : List Nat) : List (List Nat) :=
  vals.enum.map (fun pr => intShares (maskList s (pr.1 * (n - 1)) (n - 1)) pr.2)

/-- Modelled from the spec: one node's local partial sum, computed over that
node's own shares only (column j of the share matrix), in the field. -/
def nodePartialSum (matrix : List (List Nat)) (j : Nat) : Nat :=
  (matrix.map (fun row => row.getD j 0)).sum % secretModulus

/-- Modelled from the spec: the coordinator's aggregate — the arithmetic sum
of the n per-node partial sums, reduced in the field. -/
def clusterSum (n : Nat) (matrix : List (List Nat)) : Nat :=
  ((List.range n).map (fun j => nodePartialSum matrix j)).sum % secretModulus

/-- A fragment returned by one node on a read: the record identity it is
stored under together with that node's share payload. -/
structure Fragment (α : Type) where
  rid : String
  body : α

/-- Group the fragments retrieved from all nodes by record identity. -/
def groupOf {α : Type} (frags : List (Fragment α)) (rid : String) : List (Fragment α) :=
  frags.filter (fun f => f.rid == rid)

/-- The distinct record identities appearing among retrieved fragments. -/
def ridsOf {α : Type} (frags : List (Fragment α)) : List String :=
  (frags.map (fun f => f.rid)).dedup

/-- The outcome of a readMany: the unified complete groups and the record
identities of the groups reported as incomplete. -/
structure ReadManyResult (β : Type) where
  unified : List (String × β)
  incomplete : List String

/-- Modelled from the spec (readMany, spec section 4.4): filtered reads go
to all N nodes; returned fragments are grouped by record identity; a group
with fewer than N fragments is discarded from the unified output and
reported as incomplete; complete groups are unified via the Allotter. -/
def readMany {α β : Type} (nnodes : Nat) (perNode : List (List (Fragment α)))
    (unifyGroup : List α → β) : ReadManyResult β :=
  ⟨((ridsOf perNode.flatten).filter
      (fun rid => nnodes ≤ (groupOf perNode.flatten rid).length)).map
        (fun rid => (rid, unifyGroup ((groupOf perNode.flatten rid).map (fun f => f.body)))),
    (ridsOf perNode.flatten).filter
      (fun rid => (groupOf perNode.flatten rid).length < nnodes)⟩

mutual
/-- A JSON-like document tree (spec section 3): null, numbers, strings,
sequences, objects, and marked leaves — `secret a` stands for the reserved
single-key marker object holding payload `a` (the plaintext for `JDoc Prim`
documents, the share list for allotted `JDoc (List Prim)` documents, one
share for a node variant). -/
inductive JDoc (α : Type) where
  | null : JDoc α
  | num (v : Nat) : JDoc α
  | str (t : String) : JDoc α
  | secret (a : α) : JDoc α
  | arr (xs : JList α) : JDoc α
  | obj (fs : JFields α) : JDoc α
/-- A sequence of document nodes, order-preserving. -/
inductive JList (α : Type) where
  | nil : JList α
  | cons (hd : JDoc α) (tl : JList α) : JList α
/-- An object's field list, key-order-preserving. -/
inductive JFields (α : Type) where
  | nil : JFields α
  | cons (key : String) (val : JDoc α) (tl : JFields α) : JFields α
end

mutual
/-- Transform every marked leaf's payload, leaving all non-marked fields
untouched. -/
def mapSecretD {α β : Type} (f : α → β) : JDoc α → JDoc β
  | .null => .null
  | .num v => .num v
  | .str t => .str t
  | .secret a => .secret (f a)
  | .arr xs => .arr (mapSecretL f xs)
  | .obj fs => .obj (mapSecretF f fs)
def mapSecretL {α β : Type} (f : α → β) : JList α → JList β
  | .nil => .nil
  | .cons d tl => .cons (mapSecretD f d) (mapSecretL f tl)
def mapSecretF {α β : Type} (f : α → β) : JFields α → JFields β
  | .nil => .nil
  | .cons k v tl => .cons k (mapSecretD f v) (mapSecretF f tl)
end

/-- How much of the randomness stream one marked leaf consumes when split
into n shares. -/
def consumeCount (n : Nat) : Prim → Nat
  | .pint _ => n - 1
  | .pstr bs => (n - 1) * bs.length

mutual
/-- Modelled from the spec (Allotter.allot): walk the document, split every
marked leaf into its n shares with the ShareCodec (consuming the randomness
stream left to right), and copy every non-marked field verbatim; sequence
order and object key order are preserved, null passes through unsplit. -/
def allotDoc (n : Nat) (s : Nat → Nat) : JDoc Prim → Nat → JDoc (List Prim) × Nat
  | .null, off => (.null, off)
  | .num v, off => (.num v, off)
  | .str t, off => (.str t, off)
  | .secret p, off => (.secret (ShareCodec.split n s off p), off + consumeCount n p)
  | .arr xs, off =>
    let r := allotList n s xs off
    (.arr r.1, r.2)
  | .obj fs, off =>
    let r := allotFields n s fs off
    (.obj r.1, r.2)
def allotList (n : Nat) (s : Nat → Nat) : JList Prim → Nat → JList (List Prim) × Nat
  | .nil, off => (.nil, off)
  | .cons d tl, off =>
    let r := allotDoc n s d off
    let r2 := allotList n s tl r.2
    (.cons r.1 r2.1, r2.2)
def allotFields (n : Nat) (s : Nat → Nat) : JFields Prim → Nat → JFields (List Prim) × Nat
  | .nil, off => (.nil, off)
  | .cons k v tl, off =>
    let r := allotDoc n s v off
    let r2 := allotFields n s tl r.2
    (.cons k r.1 r2.1, r2.2)
end

/-- Node i's variant of an allotted document: every marked leaf keeps the
share in the position matching the node index; everything else is copied
verbatim. -/
def allotVariant (i : Nat) (a : JDoc (List Prim)) : JDoc Prim :=
  mapSecretD (fun ps => ps.getD i (.pint 0)) a

/-- The n structurally identical node variants produced by allotting a
document across the n-node cluster. -/
def variantsOf (n : Nat) (s : Nat → Nat) (d : JDoc Prim) (off : Nat) : List (JDoc Prim) :=
  (List.range n).map (fun i => allotVariant i (allotDoc n s d off).1)

/-- Lift one variant into the share-accumulator form (each marked leaf holds
the singleton list of that variant's share). -/
def injDoc (d : JDoc Prim) : JDoc (List Prim) :=
  mapSecretD (fun p => [p]) d

mutual
/-- Modelled from the spec (Allotter.unify, accumulation step): merge one
further variant into the share accumulator — non-marked fields must be
bit-identical across variants (a mismatch is a VariantDivergence failure),
marked positions accumulate the variant's share in node order. -/
def mergeDoc : JDoc (List Prim) → JDoc Prim → Option (JDoc (List Prim))
  | .null, .null => some .null
  | .num a, .num b => if a = b then some (.num a) else none
  | .str a, .str b => if a = b then some (.str a) else none
  | .secret ps, .secret q => some (.secret (ps ++ [q]))
  | .arr xs, .arr ys =>
    match mergeList xs ys with
    | some zs => some (.arr zs)
    | none => none
  | .obj fs, .obj gs =>
    match mergeFields fs gs with
    | some hs => some (.obj hs)
    | none => none
  | _, _ => none
def mergeList : JList (List Prim) → JList Prim → Option (JList (List Prim))
  | .nil, .nil => some .nil
  | .cons x xs, .cons y ys =>
    match mergeDoc x y, mergeList xs ys with
    | some z, some zs => some (.cons z zs)
    | _, _ => none
  | _, _ => none
def mergeFields : JFields (List Prim) → JFields Prim → Option (JFields (List Prim))
  | .nil, .nil => some .nil
  | .cons k v tl, .cons k2 v2 tl2 =>
    if k = k2 then
      match mergeDoc v v2, mergeFields tl tl2 with
      | some z, some zs => some (.cons k z zs)
      | _, _ => none
    else none
  | _, _ => none
end

/-- Merge the remaining variants into the accumulator one by one. -/
def mergeAll (acc : JDoc (List Prim)) : List (JDoc Prim) → Option (JDoc (List Prim))
  | [] => some acc
  | v :: vs => (mergeDoc acc v).bind (fun acc2 => mergeAll acc2 vs)

mutual
/-- Modelled from the spec (Allotter.unify, combination step): require every
accumulated share set to hold exactly n shares (an incomplete set cannot be
unified) and replace it with the ShareCodec-combined plaintext. -/
def finalizeDoc (n : Nat) : JDoc (List Prim) → Option (JDoc Prim)
  | .null => some .null
  | .num v => some (.num v)
  | .str t => some (.str t)
  | .secret ps =>
    if ps.length = n then
      match ShareCodec.combine ps with
      | some p => some (.secret p)
      | none => none
    else none
  | .arr xs =>
    match finalizeList n xs with
    | some ys => some (.arr ys)
    | none => none
  | .obj fs =>
    match finalizeFields n fs with
    | some gs => some (.obj gs)
    | none => none
def finalizeList (n : Nat) : JList (List Prim) → Option (JList Prim)
  | .nil => some .nil
  | .cons d tl =>
    match finalizeDoc n d, finalizeList n tl with
    | some d2, some tl2 => some (.cons d2 tl2)
    | _, _ => none
def finalizeFields (n : Nat) : JFields (List Prim) → Option (JFields Prim)
  | .nil => some .nil
  | .cons k v tl =>
    match finalizeDoc n v, finalizeFields n tl with
    | some v2, some tl2 => some (.cons k v2 tl2)
    | _, _ => none
end

/-- Modelled from the spec (Allotter.unify): merge the group of n variants
of one record in node order and combine every accumulated share set back to
its plaintext. -/
def unify (n : Nat) (vs : List (JDoc Prim)) : Option (JDoc Prim) :=
  match vs with
  | [] => none
  | v :: rest => (mergeAll (injDoc v) rest).bind (fun acc => finalizeDoc n acc)

/-- Truncate every accumulated share list to its first k shares (the
accumulator state after merging the first k variants). -/
def truncSecrets (k : Nat) (a : JDoc (List Prim)) : JDoc (List Prim) :=
  mapSecretD (fun ps => ps.take k) a

/-- Erase marked payloads, keeping only document structure and the
non-marked fields. -/
def scrubDoc {α : Type} (d : JDoc α) : JDoc Unit :=
  mapSecretD (fun _ => ()) d

/-- The field-domain condition as a computable check on a primitive. -/
def primInRangeB : Prim → Bool
  | .pint v => decide (v < secretModulus)
  | .pstr _ => true

mutual
/-- Every marked leaf of the document lies in the scheme's domain. -/
def docInRange : JDoc Prim → Bool
  | .null => true
  | .num _ => true
  | .str _ => true
  | .secret p => primInRangeB p
  | .arr xs => listInRange xs
  | .obj fs => fieldsInRange fs
def listInRange : JList Prim → Bool
  | .nil => true
  | .cons d tl => docInRange d && listInRange tl
def fieldsInRange : JFields Prim → Bool
  | .nil => true
  | .cons _ v tl => docInRange v && fieldsInRange tl
end

mutual
/-- Every accumulated share list in the document has exactly n entries. -/
def secretsLenD (n : Nat) : JDoc (List Prim) → Bool
  | .null => true
  | .num _ => true
  | .str _ => true
  | .secret ps => ps.length == n
  | .arr xs => secretsLenL n xs
  | .obj fs => secretsLenF n fs
def secretsLenL (n : Nat) : JList (List Prim) → Bool
  | .nil => true
  | .cons d tl => secretsLenD n d && secretsLenL n tl
def secretsLenF (n : Nat) : JFields (List Prim) → Bool
  | .nil => true
  | .cons _ v tl => secretsLenD n v && secretsLenF n tl
end

/-- The survey document of src/examples/nilql_allot.py and
data_create_read.py, in tree form: markers at depth 0, at depth 2 and inside
sequence elements, plain numbers, and nulls that pass through unsplit. -/
def sampleDoc : JDoc Prim :=
  .obj (.cons "years_in_web3" (.secret (.pint 4))
    (.cons "responses" (.arr (.cons (.num 5) (.cons (.num 1) .nil)))
    (.cons "name" (.secret (.pstr [83, 116, 101, 112, 104]))
    (.cons "test_nested" (.obj (.cons "deep" (.secret (.pint 7))
      (.cons "test_nested_4" .null .nil)))
    (.cons "test_list" (.arr (.cons (.secret (.pstr [108, 105]))
      (.cons (.secret (.pint 9)) .nil)))
    (.cons "test_null" .null .nil))))))

theorem secretModulus_pos : 0 < secretModulus := by
  norm_num [secretModulus]

theorem maskList_lt (s : Nat → Nat) (off k : Nat) :
    ∀ m ∈ maskList s off k, m < secretModulus := by
  intro m hm
  simp only [maskList, List.mem_map] at hm
  obtain ⟨i, _, rfl⟩ := hm
  exact Nat.mod_lt _ secretModulus_pos

theorem masks_sum_cancel :
    ∀ l : List Nat, (∀ m ∈ l, m < secretModulus) →
      l.sum + (l.map (fun r => secretModulus - r)).sum = l.length * secretModulus
  | [], _ => by simp
  | m :: rest, h => by
    have hm : m < secretModulus := h m (List.mem_cons_self m rest)
    have ih := masks_sum_cancel rest (fun x hx => h x (List.mem_cons_of_mem m hx))
    have h1 : m + (secretModulus - m) = secretModulus := Nat.add_sub_cancel' hm.le
    simp only [List.sum_cons, List.map_cons, List.length_cons, Nat.succ_mul]
    omega

theorem allInts_map_pint : ∀ vs : List Nat, allInts (vs.map Prim.pint) = some vs
  | [] => rfl
  | v :: rest => by
    simp [allInts, allInts_map_pint rest]

theorem allBytes_map_pstr :
    ∀ ss : List (List Nat), allBytes (ss.map Prim.pstr) = some ss
  | [] => rfl
  | bs :: rest => by
    simp [allBytes, allBytes_map_pstr rest]

theorem intShares_sum_mod (masks : List Nat) (v : Nat)
    (h : ∀ m ∈ masks, m < secretModulus) :
    (intShares masks v).sum % secretModulus = v % secretModulus := by
  simp only [intShares, List.sum_append, List.sum_cons, List.sum_nil, Nat.add_zero]
  rw [Nat.add_mod, Nat.mod_mod_of_dvd _ dvd_rfl, ← Nat.add_mod]
  rw [← Nat.add_assoc, Nat.add_comm masks.sum v, Nat.add_assoc,
    masks_sum_cancel masks h]
  exact Nat.add_mul_mod_self_right v masks.length secretModulus

theorem xorBytes_assoc :
    ∀ a b c : List Nat, xorBytes (xorBytes a b) c = xorBytes a (xorBytes b c)
  | [], _, _ => rfl
  | _ :: _, [], _ => rfl
  | _ :: _, _ :: _, [] => rfl
  | x :: a, y :: b, z :: c => by
    simp only [xorBytes, List.zipWith_cons_cons]
    exact congrArg₂ List.cons (Nat.xor_assoc x y z) (xorBytes_assoc a b c)

theorem xorBytes_comm : ∀ a b : List Nat, xorBytes a b = xorBytes b a
  | [], [] => rfl
  | [], _ :: _ => rfl
  | _ :: _, [] => rfl
  | x :: a, y :: b => by
    simp only [xorBytes, List.zipWith_cons_cons]
    exact congrArg₂ List.cons (Nat.xor_comm x y) (xorBytes_comm a b)

theorem xorBytes_cancel :
    ∀ a b : List Nat, a.length = b.length → xorBytes a (xorBytes a b) = b
  | [], [], _ => rfl
  | x :: a, y :: b, h => by
    simp only [xorBytes, List.zipWith_cons_cons]
    refine congrArg₂ List.cons ?_ (xorBytes_cancel a b (by simpa using h))
    rw [← Nat.xor_assoc, Nat.xor_self, Nat.zero_xor]

theorem xorBytes_length (a b : List Nat) :
    (xorBytes a b).length = min a.length b.length := by
  simp [xorBytes]

theorem foldl_xorBytes_pull :
    ∀ (ms : List (List Nat)) (a b : List Nat),
      ms.foldl xorBytes (xorBytes a b) = xorBytes a (ms.foldl xorBytes b)
  | [], _, _ => rfl
  | m :: ms, a, b => by
    simp only [List.foldl_cons]
    rw [xorBytes_assoc a b m, foldl_xorBytes_pull ms a (xorBytes b m)]

theorem foldl_xorBytes_length :
    ∀ (ms : List (List Nat)) (acc : List Nat) (L : Nat),
      acc.length = L → (∀ m ∈ ms, m.length = L) →
      (ms.foldl xorBytes acc).length = L
  | [], _, _, hacc, _ => hacc
  | m :: ms, acc, L, hacc, hms => by
    simp only [List.foldl_cons]
    refine foldl_xorBytes_length ms _ L ?_ (fun x hx => hms x (List.mem_cons_of_mem m hx))
    rw [xorBytes_length, hacc, hms m (List.mem_cons_self m ms)]
    exact Nat.min_self L

theorem combineStrList_shares (masks : List (List Nat)) (bs : List Nat)
    (hne : masks ≠ [])
    (hlen : ∀ m ∈ masks, m.length = bs.length) :
    combineStrList (strShares masks bs) = bs := by
  obtain ⟨m₀, ms, rfl⟩ := List.exists_cons_of_ne_nil hne
  have hm₀ : m₀.length = bs.length := hlen m₀ (List.mem_cons_self m₀ ms)
  have hms : ∀ m ∈ ms, m.length = bs.length :=
    fun x hx => hlen x (List.mem_cons_of_mem m₀ hx)
  have hX : (ms.foldl xorBytes m₀).length = bs.length :=
    foldl_xorBytes_length ms m₀ bs.length hm₀ hms
  simp only [strShares, List.cons_append, combineStrList, List.foldl_cons,
    List.foldl_append, List.foldl_nil]
  rw [foldl_xorBytes_pull ms bs m₀, xorBytes_comm bs]
  exact xorBytes_cancel _ bs hX

theorem combine_map_pint (vs : List Nat) (hne : vs ≠ []) :
    ShareCodec.combine (vs.map .pint) = some (.pint (vs.sum % secretModulus)) := by
  obtain ⟨v, rest, rfl⟩ := List.exists_cons_of_ne_nil hne
  have h := allInts_map_pint (v :: rest)
  rw [List.map_cons] at h
  simp [ShareCodec.combine, h]

theorem combine_map_pstr (ss : List (List Nat)) (hne : ss ≠ []) :
    ShareCodec.combine (ss.map .pstr) = some (.pstr (combineStrList ss)) := by
  obtain ⟨bs, rest, rfl⟩ := List.exists_cons_of_ne_nil hne
  have h := allBytes_map_pstr (bs :: rest)
  rw [List.map_cons] at h
  simp [ShareCodec.combine, h]

theorem intShares_ne_nil (masks : List Nat) (v : Nat) : intShares masks v ≠ [] := by
  simp [intShares]

theorem strShares_ne_nil (masks : List (List Nat)) (bs : List Nat) :
    strShares masks bs ≠ [] := by
  simp [strShares]

theorem byteMask_length (s : Nat → Nat) (off len : Nat) :
    (byteMask s off len).length = len := by
  simp [byteMask]

theorem strMasks_mem_length (s : Nat → Nat) (off k len : Nat) :
    ∀ m ∈ strMasks s off k len, m.length = len := by
  intro m hm
  simp only [strMasks, List.mem_map] at hm
  obtain ⟨i, _, rfl⟩ := hm
  exact byteMask_length s (off + i * len) len

theorem strMasks_ne_nil (s : Nat → Nat) (off k len : Nat) (hk : k ≠ 0) :
    strMasks s off k len ≠ [] := by
  simp [strMasks, List.range_eq_nil, hk]

theorem split_length (n : Nat) (s : Nat → Nat) (off : Nat) (p : Prim)
    (hn : 1 ≤ n) : (ShareCodec.split n s off p).length = n := by
  cases p with
  | pint v =>
    simp only [ShareCodec.split, intShares, List.length_map, List.length_append,
      List.length_cons, List.length_nil, maskList]
    simp only [List.length_map, List.length_range]
    omega
  | pstr bs =>
    simp only [ShareCodec.split, strShares, List.length_map, List.length_append,
      List.length_cons, List.length_nil, strMasks]
    simp only [List.length_map, List.length_range]
    omega

theorem combine_split_eq (n : Nat) (s : Nat → Nat) (off : Nat) (p : Prim)
    (hn : 2 ≤ n) (hp : PrimInRange p) :
    ShareCodec.combine (ShareCodec.split n s off p) = some p := by
  cases p with
  | pint v =>
    have hv : v < secretModulus := hp
    rw [ShareCodec.split, combine_map_pint _ (intShares_ne_nil _ v),
      intShares_sum_mod _ _ (maskList_lt s off (n - 1)), Nat.mod_eq_of_lt hv]
  | pstr bs =>
    rw [ShareCodec.split, combine_map_pstr _ (strShares_ne_nil _ bs),
      combineStrList_shares _ _ (strMasks_ne_nil s off (n - 1) bs.length (by omega))
        (strMasks_mem_length s off (n - 1) bs.length)]

/-- Claim C1: for every supported value (an integer in the field's numeric
domain or a byte string) and every node count n ≥ 2, combining the n shares
produced by splitting the value returns exactly the value, using exact
integer arithmetic only. -/
theorem c1_combine_split_roundtrip (n : Nat) (s : Nat → Nat) (off : Nat) (p : Prim)
    (hn : 2 ≤ n) (hp : PrimInRange p) :
    ShareCodec.combine (ShareCodec.split n s off p) = some p :=
  combine_split_eq n s off p hn hp

/-- Witness for C1: splitting the value 4269 across 3 nodes and combining
returns 4269. -/
theorem c1_combine_split_roundtrip_witness :
    ShareCodec.combine (ShareCodec.split 3 (fun i => i * 97 + 13) 0 (.pint 4269)) =
      some (.pint 4269) :=
  c1_combine_split_roundtrip 3 (fun i => i * 97 + 13) 0 (.pint 4269) (by norm_num)
    (show (4269 : Nat) < secretModulus by norm_num [secretModulus])

theorem pyInt_mono {a b : Rat} (h : a ≤ b) : pyInt a ≤ pyInt b := by
  unfold pyInt
  by_cases ha : 0 ≤ a
  · rw [if_pos ha, if_pos (le_trans ha h)]
    exact Int.floor_mono h
  · rw [if_neg ha]
    by_cases hb : 0 ≤ b
    · rw [if_pos hb]
      exact le_trans (Int.ceil_le.mpr (by exact_mod_cast le_of_not_le ha))
        ((Int.floor_nonneg).mpr hb)
    · rw [if_neg hb]
      exact Int.ceil_mono h

theorem pyInt_le_self {q : Rat} (h : 0 ≤ q) : (pyInt q : Rat) ≤ q := by
  rw [pyInt, if_pos h]
  exact Int.floor_le q

theorem pyInt_gt_sub_one {q : Rat} (h : 0 ≤ q) : q - pyInt q < 1 := by
  rw [pyInt, if_pos h]
  have := Int.sub_one_lt_floor q
  linarith

theorem pyInt_ge_self {q : Rat} (h : q < 0) : q ≤ (pyInt q : Rat) := by
  rw [pyInt, if_neg (not_le.mpr h)]
  exact Int.le_ceil q

theorem pyInt_lt_add_one {q : Rat} (h : q < 0) : (pyInt q : Rat) < q + 1 := by
  rw [pyInt, if_neg (not_le.mpr h)]
  exact Int.ceil_lt_add_one q

/-- Counterexample for C10: at clock reading t = 1/2 with seconds = -2, the
returned timestamp is -1, which strictly exceeds t + seconds = -3/2 —
Python's int() truncates toward zero, rounding negative sums upward. -/
theorem c10_counterexample :
    into_seconds_from_now (1 / 2 : Rat) (-2) = -1 ∧
      (1 / 2 : Rat) + ((-2 : Int) : Rat) <
        ((into_seconds_from_now (1 / 2 : Rat) (-2) : Int) : Rat) := by
  have hv : into_seconds_from_now (1 / 2 : Rat) (-2) = -1 := by
    rw [into_seconds_from_now, pyInt, if_neg (by norm_num)]
    rw [show (1 / 2 : Rat) + ((-2 : Int) : Rat) = -(3 / 2) by norm_num]
    rw [Int.ceil_eq_iff]
    constructor <;> norm_num
  refine ⟨hv, ?_⟩
  rw [hv]
  norm_num

/-- Claim C10 (amended): into_seconds_from_now(seconds) at clock reading t
returns int(t + seconds), truncated toward zero; for a fixed t the result is
monotone nondecreasing in seconds; when t + seconds is nonnegative the
result never exceeds t + seconds and precedes it by less than one second;
when t + seconds is negative the result is at least t + seconds and exceeds
it by less than one second. -/
theorem c10_into_seconds_from_now (t : Rat) (s1 s2 seconds : Int) :
    (s1 ≤ s2 → into_seconds_from_now t s1 ≤ into_seconds_from_now t s2) ∧
    (0 ≤ t + (seconds : Rat) →
      ((into_seconds_from_now t seconds : Int) : Rat) ≤ t + (seconds : Rat) ∧
        t + (seconds : Rat) - ((into_seconds_from_now t seconds : Int) : Rat) < 1) ∧
    (t + (seconds : Rat) < 0 →
      t + (seconds : Rat) ≤ ((into_seconds_from_now t seconds : Int) : Rat) ∧
        ((into_seconds_from_now t seconds : Int) : Rat) < t + (seconds : Rat) + 1) := by
  refine ⟨?_, ?_, ?_⟩
  · intro h
    apply pyInt_mono
    have : ((s1 : Rat)) ≤ (s2 : Rat) := by exact_mod_cast h
    linarith
  · intro h
    exact ⟨pyInt_le_self h, pyInt_gt_sub_one h⟩
  · intro h
    exact ⟨pyInt_ge_self h, pyInt_lt_add_one h⟩

/-- Witness for C10: monotonicity at seconds 0 ≤ 1 with clock 0, and the
truncation bound at clock 1/2 with seconds 60. -/
theorem c10_into_seconds_from_now_witness :
    into_seconds_from_now 0 0 ≤ into_seconds_from_now 0 1 ∧
      ((into_seconds_from_now (1 / 2 : Rat) 60 : Int) : Rat) ≤
        (1 / 2 : Rat) + ((60 : Int) : Rat) :=
  ⟨(c10_into_seconds_from_now 0 0 1 0).1 (by norm_num),
    ((c10_into_seconds_from_now (1 / 2) 0 0 60).2.1 (by norm_num)).1⟩

/-- Counterexample for C8: minting with ttl = 60 at clock reading t = 1/2
produces the expiry 60, which is not equal to t + ttl = 60.5 — the expiry
is the sum truncated to a whole second, not the exact sum. -/
theorem c8_counterexample :
    (mintDelegation ⟨"", [], 0⟩ "did:user" ["nil", "db", "data", "create"] 60
        (1 / 2)).expiresAt = 60 ∧
      ((mintDelegation ⟨"", [], 0⟩ "did:user" ["nil", "db", "data", "create"] 60
          (1 / 2)).expiresAt : Rat) ≠ (1 / 2 : Rat) + ((60 : Int) : Rat) := by
  have hv : (mintDelegation ⟨"", [], 0⟩ "did:user" ["nil", "db", "data", "create"] 60
      (1 / 2)).expiresAt = 60 := by
    show into_seconds_from_now (1 / 2 : Rat) 60 = 60
    rw [into_seconds_from_now, pyInt, if_pos (by norm_num)]
    rw [Int.floor_eq_iff]
    constructor <;> norm_num
  refine ⟨hv, ?_⟩
  rw [hv]
  norm_num

/-- Claim C8 (amended): the minted delegation token names exactly the given
audience, authorizes exactly the named command class, and carries an expiry
equal to int(t + ttl) — the clock reading at minting plus ttl truncated to a
whole second, hence within one second below t + ttl whenever that sum is
nonnegative; its validity is decided by comparing the current time against
that expiry only. -/
theorem c8_mintDelegation (root : NucToken) (aud : String) (cmd : List String)
    (ttl : Int) (t : Rat) :
    (mintDelegation root aud cmd ttl t).audience = aud ∧
    (mintDelegation root aud cmd ttl t).command = cmd ∧
    (mintDelegation root aud cmd ttl t).expiresAt = into_seconds_from_now t ttl ∧
    (0 ≤ t + (ttl : Rat) →
      (((mintDelegation root aud cmd ttl t).expiresAt : Int) : Rat) ≤ t + (ttl : Rat) ∧
        t + (ttl : Rat) - (((mintDelegation root aud cmd ttl t).expiresAt : Int) : Rat) < 1) ∧
    (∀ now : Rat, tokenValid (mintDelegation root aud cmd ttl t) now = true ↔
      now ≤ ((into_seconds_from_now t ttl : Int) : Rat)) := by
  refine ⟨rfl, rfl, rfl, ?_, ?_⟩
  · intro h
    exact ⟨pyInt_le_self h, pyInt_gt_sub_one h⟩
  · intro now
    simp [tokenValid, mintDelegation, NucTokenBuilder.build, NucTokenBuilder.extending,
      NucTokenBuilder.command, NucTokenBuilder.audience, NucTokenBuilder.expires_at]

/-- Witness for C8: the amended claim at a concrete minting — audience
"did:user", command class data/create, ttl 60 at clock reading 1/2. -/
theorem c8_mintDelegation_witness :
    (mintDelegation ⟨"", [], 0⟩ "did:user" ["nil", "db", "data", "create"] 60
        (1 / 2)).audience = "did:user" ∧
      (((mintDelegation ⟨"", [], 0⟩ "did:user" ["nil", "db", "data", "create"] 60
          (1 / 2)).expiresAt : Int) : Rat) ≤ (1 / 2 : Rat) + ((60 : Int) : Rat) :=
  ⟨(c8_mintDelegation ⟨"", [], 0⟩ "did:user" ["nil", "db", "data", "create"] 60 (1 / 2)).1,
    (((c8_mintDelegation ⟨"", [], 0⟩ "did:user" ["nil", "db", "data", "create"] 60
        (1 / 2)).2.2.2.1) (by norm_num)).1⟩

theorem pollIdx_eq_min : ∀ k : Nat, pollIdx k = min k 5
  | 0 => rfl
  | k + 1 => by
    have ih := pollIdx_eq_min k
    rw [pollIdx, ih, pollWaitStep]
    by_cases h : min k 5 < retryIntervals.length
    · rw [if_pos h]
      simp only [retryIntervals, List.length_cons, List.length_nil] at h
      omega
    · rw [if_neg h]
      simp only [retryIntervals, List.length_cons, List.length_nil] at h
      omega

/-- Claim C9: in the poll loop of run_query, the k-th wait interval equals
the k-th element of 3, 5, 10, 30, 60 while elements remain and the constant
60 seconds thereafter; successive wait intervals are nondecreasing and end
in an unbounded constant plateau. -/
theorem c9_poll_backoff (k : Nat) :
    (k < 5 → waitSeq k = retryIntervals.getD k 0) ∧
    (5 ≤ k → waitSeq k = 60) ∧
    waitSeq k ≤ waitSeq (k + 1) := by
  have hw : ∀ m : Nat, waitSeq m = if m < 5 then retryIntervals.getD m 0 else 60 := by
    intro m
    rw [waitSeq, pollIdx_eq_min, pollWaitStep]
    by_cases h : m < 5
    · rw [if_pos (by simp only [retryIntervals, List.length_cons, List.length_nil]; omega),
        if_pos h, Nat.min_eq_left (by omega)]
      interval_cases m <;> rfl
    · rw [if_neg (by simp only [retryIntervals, List.length_cons, List.length_nil]; omega),
        if_neg h]
  refine ⟨fun h => by rw [hw k, if_pos h], fun h => by rw [hw k, if_neg (by omega)], ?_⟩
  by_cases h : k < 5
  · rw [hw k, hw (k + 1), if_pos h]
    interval_cases k <;> norm_num [retryIntervals]
  · rw [hw k, hw (k + 1), if_neg h, if_neg (by omega)]

/-- Witness for C9: the second wait is 5 seconds (the sequence's element at
index 1) and the eighth wait is the 60-second plateau. -/
theorem c9_poll_backoff_witness :
    waitSeq 1 = retryIntervals.getD 1 0 ∧ waitSeq 7 = 60 :=
  ⟨(c9_poll_backoff 1).1 (by norm_num), (c9_poll_backoff 7).2.1 (by norm_num)⟩

theorem mem_createdFold :
    ∀ (results : List NodeWriteResult) (a : String),
      (a ∈ results.foldr (fun item acc => item.result.getD [] ++ acc) []) ↔
        ∃ r ∈ results, ∃ ids, r.result = some ids ∧ a ∈ ids
  | [], a => by simp
  | r :: rest, a => by
    simp only [List.foldr_cons, List.mem_append, mem_createdFold rest a, List.mem_cons]
    constructor
    · rintro (h | ⟨r', hr', ids, hids, ha⟩)
      · cases hres : r.result with
        | none => rw [hres] at h; simp at h
        | some ids => rw [hres] at h; exact ⟨r, Or.inl rfl, ids, hres, h⟩
      · exact ⟨r', Or.inr hr', ids, hids, ha⟩
    · rintro ⟨r', hr' | hr', ids, hids, ha⟩
      · subst hr'
        rw [hids]
        exact Or.inl ha
      · exact Or.inr ⟨r', hr', ids, hids, ha⟩

/-- Claim C5: the created-id collection returned by a batch write contains
each logical record's identity exactly once (deduplicated across the N
per-node results), and an identity is included exactly when at least one
node accepted the record — even if fewer than N nodes succeeded. -/
theorem c5_extractNewIds (results : List NodeWriteResult) (a : String) :
    (extractNewIds results).Nodup ∧
      (extractNewIds results).count a ≤ 1 ∧
      (a ∈ extractNewIds results ↔
        ∃ r ∈ results, ∃ ids, r.result = some ids ∧ a ∈ ids) := by
  refine ⟨List.nodup_dedup _, ?_, ?_⟩
  · exact List.nodup_iff_count_le_one.mp (List.nodup_dedup _) a
  · rw [extractNewIds, List.mem_dedup]
    exact mem_createdFold results a

theorem revoke_filter_empty (l : List AclEntry) (g : String) :
    (l.filter (fun e => decide (e.grantee ≠ g))).filter (fun e => e.grantee == g) = [] := by
  induction l with
  | nil => rfl
  | cons e rest ih =>
    by_cases h : e.grantee = g
    · simp only [List.filter_cons, h, decide_not, decide_eq_true_eq]
      simp [ih]
    · simp only [List.filter_cons]
      rw [if_pos (by simp [h]), List.filter_cons, if_neg (by simp [h])]
      exact ih

/-- Claim C6: the owned-document access-control state machine — creation
sets the owner with an empty ACL, grant appends exactly one entry, revoke
removes every entry for the grantee, and after a broadcast grant followed by
a broadcast revoke for the same grantee no node holds any entry for that
grantee. -/
theorem c6_acl_state_machine (owner g : String) (e : AclEntry) (d : OwnedDoc)
    (nodes : List OwnedDoc) (r w x : Bool) :
    ((createOwned owner).owner = owner ∧ (createOwned owner).acl = []) ∧
    (grantAcl d e).acl = d.acl ++ [e] ∧
    (revokeAcl d g).acl = d.acl.filter (fun a => decide (a.grantee ≠ g)) ∧
    ((revokeAcl d g).acl.filter (fun a => a.grantee == g) = []) ∧
    ((broadcastDoc (fun d0 => revokeAcl d0 g)
        (broadcastDoc (fun d0 => grantAcl d0 ⟨g, r, w, x⟩) nodes)).map
          (fun nd => nd.acl.filter (fun a => a.grantee == g)) =
      nodes.map (fun _ => [])) := by
  refine ⟨⟨rfl, rfl⟩, rfl, rfl, revoke_filter_empty d.acl g, ?_⟩
  simp only [broadcastDoc, List.map_map]
  induction nodes with
  | nil => rfl
  | cons nd rest ih =>
    simp only [List.map_cons, Function.comp] at ih ⊢
    rw [ih]
    have hh := revoke_filter_empty (grantAcl nd ⟨g, r, w, x⟩).acl g
    simp only [revokeAcl] at hh ⊢
    rw [hh]

/-- Claim C7: an ACL mutation is broadcast identically to all N nodes, every
node's own outcome appears in the reported per-node result map, and the
operation is reported as failed exactly when at least one node returns a
non-success status. -/
theorem c7_acl_broadcast (req : AclRequest) (nodes : List String)
    (nodeStatus : String → AclRequest → Nat) :
    ((broadcastAclRequest req nodes nodeStatus).map Prod.fst = nodes) ∧
    (∀ nid, nid ∈ nodes →
      (nid, nodeStatus nid req) ∈ broadcastAclRequest req nodes nodeStatus) ∧
    (hasErrors (broadcastAclRequest req nodes nodeStatus) = true ↔
      ∃ nid ∈ nodes, nodeStatus nid req ≠ 204) := by
  refine ⟨?_, ?_, ?_⟩
  · simp only [broadcastAclRequest]
    induction nodes with
    | nil => rfl
    | cons nid rest ih =>
      simp only [List.map_cons]
      rw [ih]
  · intro nid h
    simp only [broadcastAclRequest, List.mem_map]
    exact ⟨nid, h, rfl⟩
  · simp only [hasErrors, broadcastAclRequest, List.any_eq_true, List.mem_map]
    constructor
    · rintro ⟨pr, ⟨nid, hnid, rfl⟩, hpr⟩
      exact ⟨nid, hnid, by simpa using hpr⟩
    · rintro ⟨nid, hnid, h⟩
      exact ⟨(nid, nodeStatus nid req), ⟨nid, hnid, rfl⟩, by simpa using h⟩

/-- Witness for C7: a one-node cluster whose node rejects with status 500 —
the node's outcome appears in the result map and the operation is reported
failed. -/
theorem c7_acl_broadcast_witness :
    ("n1", (500 : Nat)) ∈ broadcastAclRequest ⟨"c", "d", "g", true⟩ ["n1"]
        (fun _ _ => 500) ∧
      hasErrors (broadcastAclRequest ⟨"c", "d", "g", true⟩ ["n1"] (fun _ _ => 500)) = true :=
  ⟨(c7_acl_broadcast ⟨"c", "d", "g", true⟩ ["n1"] (fun _ _ => 500)).2.1 "n1" (by decide),
    (c7_acl_broadcast ⟨"c", "d", "g", true⟩ ["n1"] (fun _ _ => 500)).2.2.mpr
      ⟨"n1", by decide, by norm_num⟩⟩

theorem sum_mod_map :
    ∀ l : List Nat,
      (l.map (fun v => v % secretModulus)).sum % secretModulus = l.sum % secretModulus
  | [] => rfl
  | a :: l => by
    rw [List.map_cons, List.sum_cons, List.sum_cons, Nat.add_mod, sum_mod_map l,
      Nat.mod_mod_of_dvd _ dvd_rfl, ← Nat.add_mod]

theorem sum_map_add {α : Type} :
    ∀ (l : List α) (f g : α → Nat),
      (l.map (fun v => f v + g v)).sum = (l.map f).sum + (l.map g).sum
  | [], _, _ => rfl
  | a :: l, f, g => by
    simp only [List.map_cons, List.sum_cons, sum_map_add l f g]
    omega

theorem sum_exchange :
    ∀ (matrix : List (List Nat)) (n : Nat),
      ((List.range n).map (fun j => (matrix.map (fun row => row.getD j 0)).sum)).sum =
        (matrix.map (fun row => ((List.range n).map (fun j => row.getD j 0)).sum)).sum
  | [], n => by simp
  | row :: rest, n => by
    simp only [List.map_cons, List.sum_cons]
    rw [sum_map_add (List.range n) (fun j => row.getD j 0)
      (fun j => (rest.map (fun r => r.getD j 0)).sum), sum_exchange rest n]

theorem sum_range_getD :
    ∀ row : List Nat, ((List.range row.length).map (fun j => row.getD j 0)).sum = row.sum
  | [] => rfl
  | a :: row => by
    rw [List.length_cons, List.range_succ_eq_map]
    simp only [List.map_cons, List.map_map, List.sum_cons, List.getD_cons_zero]
    have hcomp : ((fun j => (a :: row).getD j 0) ∘ Nat.succ) = fun j => row.getD j 0 :=
      funext fun j => List.getD_cons_succ
    rw [hcomp, sum_range_getD row]

theorem map_rowsum_congr :
    ∀ (matrix : List (List Nat)) (n : Nat), (∀ row ∈ matrix, row.length = n) →
      matrix.map (fun row => ((List.range n).map (fun j => row.getD j 0)).sum) =
        matrix.map List.sum
  | [], _, _ => rfl
  | row :: rest, n, h => by
    have ht := sum_range_getD row
    rw [h row (List.mem_cons_self row rest)] at ht
    simp only [List.map_cons]
    rw [ht, map_rowsum_congr rest n (fun r hr => h r (List.mem_cons_of_mem row hr))]

theorem shareMatrix_row_length (n : Nat) (s : Nat → Nat) (vals : List Nat)
    (hn : 1 ≤ n) : ∀ row ∈ shareMatrix n s vals, row.length = n := by
  intro row hrow
  simp only [shareMatrix, List.mem_map] at hrow
  obtain ⟨pr, _, rfl⟩ := hrow
  simp only [intShares, maskList, List.length_append, List.length_map,
    List.length_range, List.length_cons, List.length_nil]
  omega

theorem intShares_rows_sum_mod (n : Nat) (s : Nat → Nat) :
    ∀ l : List (Nat × Nat),
      ((l.map (fun pr => intShares (maskList s (pr.1 * (n - 1)) (n - 1)) pr.2)).map
          List.sum).sum % secretModulus =
        (l.map Prod.snd).sum % secretModulus
  | [] => rfl
  | pr :: rest => by
    simp only [List.map_cons, List.sum_cons]
    rw [Nat.add_mod, intShares_sum_mod _ _ (maskList_lt s (pr.1 * (n - 1)) (n - 1)),
      intShares_rows_sum_mod n s rest, Nat.add_mod pr.2]

theorem shareMatrix_sum_mod (n : Nat) (s : Nat → Nat) (vals : List Nat) :
    ((shareMatrix n s vals).map List.sum).sum % secretModulus =
      vals.sum % secretModulus := by
  rw [shareMatrix, intShares_rows_sum_mod n s vals.enum, List.enum_map_snd]

/-- Claim C3: splitting in-range values v1..vk additively across n nodes,
letting each node sum only its own shares, and summing the n partial sums at
the coordinator yields exactly the sum of the values — the additive sharing
is a homomorphism under addition. -/
theorem c3_aggregation (n : Nat) (s : Nat → Nat) (vals : List Nat)
    (hn : 2 ≤ n) (hsum : vals.sum < secretModulus) :
    clusterSum n (shareMatrix n s vals) = vals.sum := by
  have hrows := shareMatrix_row_length n s vals (by omega)
  have h1 : (List.range n).map (fun j => nodePartialSum (shareMatrix n s vals) j) =
      ((List.range n).map
        (fun j => ((shareMatrix n s vals).map (fun row => row.getD j 0)).sum)).map
          (fun v => v % secretModulus) := by
    simp [nodePartialSum, List.map_map, Function.comp]
  rw [clusterSum, h1, sum_mod_map, sum_exchange, map_rowsum_congr _ n hrows,
    shareMatrix_sum_mod, Nat.mod_eq_of_lt hsum]

/-- Witness for C3: the values 4, 1, 5 of the survey example, split across 3
nodes, aggregate to exactly 10. -/
theorem c3_aggregation_witness :
    clusterSum 3 (shareMatrix 3 (fun i => i * 31 + 5) [4, 1, 5]) = [4, 1, 5].sum :=
  c3_aggregation 3 (fun i => i * 31 + 5) [4, 1, 5] (by norm_num) (by decide)

/-- Claim C4: on a read over a cluster of N nodes, a record-identity group
with fewer than N retrieved fragments is excluded from the unified output
and reported as incomplete, and every document in the unified output is the
unification of a full group — a partially-unified document is never
returned. -/
theorem c4_readMany_excludes_incomplete {α β : Type} (nnodes : Nat)
    (perNode : List (List (Fragment α))) (unifyGroup : List α → β)
    (rid : String) (b : β) :
    ((groupOf perNode.flatten rid).length < nnodes →
      ((rid, b) ∉ (readMany nnodes perNode unifyGroup).unified) ∧
      (rid ∈ ridsOf perNode.flatten →
        rid ∈ (readMany nnodes perNode unifyGroup).incomplete)) ∧
    ((rid, b) ∈ (readMany nnodes perNode unifyGroup).unified →
      nnodes ≤ (groupOf perNode.flatten rid).length ∧
        b = unifyGroup ((groupOf perNode.flatten rid).map (fun f => f.body))) := by
  constructor
  · intro hlt
    constructor
    · intro hmem
      simp only [readMany, List.mem_map, List.mem_filter, decide_eq_true_eq] at hmem
      obtain ⟨r, ⟨_, hge⟩, heq⟩ := hmem
      have hr : r = rid := congrArg Prod.fst heq
      rw [hr] at hge
      omega
    · intro hrid
      simp only [readMany, List.mem_filter, decide_eq_true_eq]
      exact ⟨hrid, hlt⟩
  · intro hmem
    simp only [readMany, List.mem_map, List.mem_filter, decide_eq_true_eq] at hmem
    obtain ⟨r, ⟨_, hge⟩, heq⟩ := hmem
    have hr : r = rid := congrArg Prod.fst heq
    have hb : b = unifyGroup ((groupOf perNode.flatten r).map (fun f => f.body)) :=
      (congrArg Prod.snd heq).symm
    rw [hr] at hge hb
    exact ⟨hge, hb⟩

/-- Witness for C4: a two-node cluster where only one node returns the
fragment of record "a" — the record is excluded from the unified output and
reported incomplete. -/
theorem c4_readMany_excludes_incomplete_witness :
    (("a", (5 : Nat)) ∉
        (readMany 2 [[⟨"a", 5⟩], []] (fun l => l.sum)).unified) ∧
      "a" ∈ (readMany 2 [[⟨"a", (5 : Nat)⟩], []] (fun l => l.sum)).incomplete :=
  ⟨((c4_readMany_excludes_incomplete 2 [[⟨"a", 5⟩], []] (fun l => l.sum) "a" 5).1
      (by decide)).1,
    ((c4_readMany_excludes_incomplete 2 [[⟨"a", 5⟩], []] (fun l => l.sum) "a" 5).1
      (by decide)).2 (by decide)⟩

theorem primInRangeB_sound (p : Prim) (h : primInRangeB p = true) : PrimInRange p := by
  cases p with
  | pint v => simpa [primInRangeB, PrimInRange] using h
  | pstr bs => trivial

theorem take_append_getD {α : Type} (l : List α) (k : Nat) (d : α) (h : k < l.length) :
    l.take k ++ [l.getD k d] = l.take (k + 1) := by
  rw [List.take_succ, List.getD_eq_getElem l d h, List.getElem?_eq_getElem h]
  rfl

theorem getD_zero_take_one {α : Type} (l : List α) (d : α) (h : 0 < l.length) :
    [l.getD 0 d] = l.take 1 := by
  cases l with
  | nil => simp at h
  | cons a tl => rfl

mutual
theorem allot_secretsLenD (n : Nat) (s : Nat → Nat) (hn : 1 ≤ n) :
    ∀ (d : JDoc Prim) (off : Nat), secretsLenD n (allotDoc n s d off).1 = true
  | .null, _ => rfl
  | .num _, _ => rfl
  | .str _, _ => rfl
  | .secret p, off => by
    simp [allotDoc, secretsLenD, split_length n s off p hn]
  | .arr xs, off => by
    simp only [allotDoc, secretsLenD]
    exact allot_secretsLenL n s hn xs off
  | .obj fs, off => by
    simp only [allotDoc, secretsLenD]
    exact allot_secretsLenF n s hn fs off
theorem allot_secretsLenL (n : Nat) (s : Nat → Nat) (hn : 1 ≤ n) :
    ∀ (xs : JList Prim) (off : Nat), secretsLenL n (allotList n s xs off).1 = true
  | .nil, _ => rfl
  | .cons d tl, off => by
    simp only [allotList, secretsLenL, Bool.and_eq_true]
    exact ⟨allot_secretsLenD n s hn d off, allot_secretsLenL n s hn tl (allotDoc n s d off).2⟩
theorem allot_secretsLenF (n : Nat) (s : Nat → Nat) (hn : 1 ≤ n) :
    ∀ (fs : JFields Prim) (off : Nat), secretsLenF n (allotFields n s fs off).1 = true
  | .nil, _ => rfl
  | .cons _ v tl, off => by
    simp only [allotFields, secretsLenF, Bool.and_eq_true]
    exact ⟨allot_secretsLenD n s hn v off, allot_secretsLenF n s hn tl (allotDoc n s v off).2⟩
end

mutual
theorem merge_trunc_variantD (n : Nat) :
    ∀ (a : JDoc (List Prim)), secretsLenD n a = true → ∀ j : Nat, j < n →
      mergeDoc (mapSecretD (fun ps => ps.take j) a)
          (mapSecretD (fun ps => ps.getD j (.pint 0)) a) =
        some (mapSecretD (fun ps => ps.take (j + 1)) a)
  | .null, _, _, _ => rfl
  | .num v, _, j, _ => by
    simp [mapSecretD, mergeDoc]
  | .str t, _, j, _ => by
    simp [mapSecretD, mergeDoc]
  | .secret ps, hlen, j, hj => by
    have hl : ps.length = n := by simpa [secretsLenD] using hlen
    simp only [mapSecretD, mergeDoc]
    rw [take_append_getD ps j _ (by omega)]
  | .arr xs, hlen, j, hj => by
    simp only [mapSecretD, mergeDoc]
    rw [merge_trunc_variantL n xs (by simpa [secretsLenD] using hlen) j hj]
  | .obj fs, hlen, j, hj => by
    simp only [mapSecretD, mergeDoc]
    rw [merge_trunc_variantF n fs (by simpa [secretsLenD] using hlen) j hj]
theorem merge_trunc_variantL (n : Nat) :
    ∀ (xs : JList (List Prim)), secretsLenL n xs = true → ∀ j : Nat, j < n →
      mergeList (mapSecretL (fun ps => ps.take j) xs)
          (mapSecretL (fun ps => ps.getD j (.pint 0)) xs) =
        some (mapSecretL (fun ps => ps.take (j + 1)) xs)
  | .nil, _, _, _ => rfl
  | .cons d tl, hlen, j, hj => by
    have h := hlen
    simp only [secretsLenL, Bool.and_eq_true] at h
    simp only [mapSecretL, mergeList]
    rw [merge_trunc_variantD n d h.1 j hj, merge_trunc_variantL n tl h.2 j hj]
theorem merge_trunc_variantF (n : Nat) :
    ∀ (fs : JFields (List Prim)), secretsLenF n fs = true → ∀ j : Nat, j < n →
      mergeFields (mapSecretF (fun ps => ps.take j) fs)
          (mapSecretF (fun ps => ps.getD j (.pint 0)) fs) =
        some (mapSecretF (fun ps => ps.take (j + 1)) fs)
  | .nil, _, _, _ => rfl
  | .cons k v tl, hlen, j, hj => by
    have h := hlen
    simp only [secretsLenF, Bool.and_eq_true] at h
    simp only [mapSecretF, mergeFields, if_pos]
    rw [merge_trunc_variantD n v h.1 j hj, merge_trunc_variantF n tl h.2 j hj]
end

mutual
theorem inj_variant0D (n : Nat) (hn : 1 ≤ n) :
    ∀ a : JDoc (List Prim), secretsLenD n a = true →
      mapSecretD (fun p => [p]) (mapSecretD (fun ps => ps.getD 0 (.pint 0)) a) =
        mapSecretD (fun ps => ps.take 1) a
  | .null, _ => rfl
  | .num _, _ => rfl
  | .str _, _ => rfl
  | .secret ps, hlen => by
    have hl : ps.length = n := by simpa [secretsLenD] using hlen
    simp only [mapSecretD]
    rw [getD_zero_take_one ps _ (by omega)]
  | .arr xs, hlen => by
    simp only [mapSecretD]
    rw [inj_variant0L n hn xs (by simpa [secretsLenD] using hlen)]
  | .obj fs, hlen => by
    simp only [mapSecretD]
    rw [inj_variant0F n hn fs (by simpa [secretsLenD] using hlen)]
theorem inj_variant0L (n : Nat) (hn : 1 ≤ n) :
    ∀ xs : JList (List Prim), secretsLenL n xs = true →
      mapSecretL (fun p => [p]) (mapSecretL (fun ps => ps.getD 0 (.pint 0)) xs) =
        mapSecretL (fun ps => ps.take 1) xs
  | .nil, _ => rfl
  | .cons d tl, hlen => by
    have h := hlen
    simp only [secretsLenL, Bool.and_eq_true] at h
    simp only [mapSecretL]
    rw [inj_variant0D n hn d h.1, inj_variant0L n hn tl h.2]
theorem inj_variant0F (n : Nat) (hn : 1 ≤ n) :
    ∀ fs : JFields (List Prim), secretsLenF n fs = true →
      mapSecretF (fun p => [p]) (mapSecretF (fun ps => ps.getD 0 (.pint 0)) fs) =
        mapSecretF (fun ps => ps.take 1) fs
  | .nil, _ => rfl
  | .cons k v tl, hlen => by
    have h := hlen
    simp only [secretsLenF, Bool.and_eq_true] at h
    simp only [mapSecretF]
    rw [inj_variant0D n hn v h.1, inj_variant0F n hn tl h.2]
end

mutual
theorem trunc_idD (n : Nat) :
    ∀ a : JDoc (List Prim), secretsLenD n a = true →
      mapSecretD (fun ps => ps.take n) a = a
  | .null, _ => rfl
  | .num _, _ => rfl
  | .str _, _ => rfl
  | .secret ps, hlen => by
    have hl : ps.length = n := by simpa [secretsLenD] using hlen
    simp only [mapSecretD]
    rw [← hl, List.take_length]
  | .arr xs, hlen => by
    simp only [mapSecretD]
    rw [trunc_idL n xs (by simpa [secretsLenD] using hlen)]
  | .obj fs, hlen => by
    simp only [mapSecretD]
    rw [trunc_idF n fs (by simpa [secretsLenD] using hlen)]
theorem trunc_idL (n : Nat) :
    ∀ xs : JList (List Prim), secretsLenL n xs = true →
      mapSecretL (fun ps => ps.take n) xs = xs
  | .nil, _ => rfl
  | .cons d tl, hlen => by
    have h := hlen
    simp only [secretsLenL, Bool.and_eq_true] at h
    simp only [mapSecretL]
    rw [trunc_idD n d h.1, trunc_idL n tl h.2]
theorem trunc_idF (n : Nat) :
    ∀ fs : JFields (List Prim), secretsLenF n fs = true →
      mapSecretF (fun ps => ps.take n) fs = fs
  | .nil, _ => rfl
  | .cons k v tl, hlen => by
    have h := hlen
    simp only [secretsLenF, Bool.and_eq_true] at h
    simp only [mapSecretF]
    rw [trunc_idD n v h.1, trunc_idF n tl h.2]
end

mutual
theorem finalize_allotD (n : Nat) (s : Nat → Nat) (hn : 2 ≤ n) :
    ∀ (d : JDoc Prim) (off : Nat), docInRange d = true →
      finalizeDoc n (allotDoc n s d off).1 = some d
  | .null, _, _ => rfl
  | .num _, _, _ => rfl
  | .str _, _, _ => rfl
  | .secret p, off, hin => by
    simp only [allotDoc, finalizeDoc]
    rw [if_pos (split_length n s off p (by omega))]
    rw [combine_split_eq n s off p hn (primInRangeB_sound p (by simpa [docInRange] using hin))]
  | .arr xs, off, hin => by
    simp only [allotDoc, finalizeDoc]
    rw [finalize_allotL n s hn xs off (by simpa [docInRange] using hin)]
  | .obj fs, off, hin => by
    simp only [allotDoc, finalizeDoc]
    rw [finalize_allotF n s hn fs off (by simpa [docInRange] using hin)]
theorem finalize_allotL (n : Nat) (s : Nat → Nat) (hn : 2 ≤ n) :
    ∀ (xs : JList Prim) (off : Nat), listInRange xs = true →
      finalizeList n (allotList n s xs off).1 = some xs
  | .nil, _, _ => rfl
  | .cons d tl, off, hin => by
    have h := hin
    simp only [listInRange, Bool.and_eq_true] at h
    simp only [allotList, finalizeList]
    rw [finalize_allotD n s hn d off h.1,
      finalize_allotL n s hn tl (allotDoc n s d off).2 h.2]
theorem finalize_allotF (n : Nat) (s : Nat → Nat) (hn : 2 ≤ n) :
    ∀ (fs : JFields Prim) (off : Nat), fieldsInRange fs = true →
      finalizeFields n (allotFields n s fs off).1 = some fs
  | .nil, _, _ => rfl
  | .cons k v tl, off, hin => by
    have h := hin
    simp only [fieldsInRange, Bool.and_eq_true] at h
    simp only [allotFields, finalizeFields]
    rw [finalize_allotD n s hn v off h.1,
      finalize_allotF n s hn tl (allotDoc n s v off).2 h.2]
end

mutual
theorem scrub_variantD (n : Nat) (s : Nat → Nat) (i : Nat) :
    ∀ (d : JDoc Prim) (off : Nat),
      mapSecretD (fun _ => ()) (mapSecretD (fun ps => ps.getD i (.pint 0))
        (allotDoc n s d off).1) = mapSecretD (fun _ => ()) d
  | .null, _ => rfl
  | .num _, _ => rfl
  | .str _, _ => rfl
  | .secret p, off => rfl
  | .arr xs, off => by
    simp only [allotDoc, mapSecretD]
    rw [scrub_variantL n s i xs off]
  | .obj fs, off => by
    simp only [allotDoc, mapSecretD]
    rw [scrub_variantF n s i fs off]
theorem scrub_variantL (n : Nat) (s : Nat → Nat) (i : Nat) :
    ∀ (xs : JList Prim) (off : Nat),
      mapSecretL (fun _ => ()) (mapSecretL (fun ps => ps.getD i (.pint 0))
        (allotList n s xs off).1) = mapSecretL (fun _ => ()) xs
  | .nil, _ => rfl
  | .cons d tl, off => by
    simp only [allotList, mapSecretL]
    rw [scrub_variantD n s i d off, scrub_variantL n s i tl (allotDoc n s d off).2]
theorem scrub_variantF (n : Nat) (s : Nat → Nat) (i : Nat) :
    ∀ (fs : JFields Prim) (off : Nat),
      mapSecretF (fun _ => ()) (mapSecretF (fun ps => ps.getD i (.pint 0))
        (allotFields n s fs off).1) = mapSecretF (fun _ => ()) fs
  | .nil, _ => rfl
  | .cons k v tl, off => by
    simp only [allotFields, mapSecretF]
    rw [scrub_variantD n s i v off, scrub_variantF n s i tl (allotDoc n s v off).2]
end

theorem mergeAll_range' (n : Nat) (a : JDoc (List Prim)) (hlen : secretsLenD n a = true) :
    ∀ (k j : Nat), j + k ≤ n →
      mergeAll (mapSecretD (fun ps => ps.take j) a)
          ((List.range' j k).map (fun i => mapSecretD (fun ps => ps.getD i (.pint 0)) a)) =
        some (mapSecretD (fun ps => ps.take (j + k)) a)
  | 0, j, _ => by simp [mergeAll]
  | k + 1, j, h => by
    rw [List.range'_succ, List.map_cons]
    simp only [mergeAll]
    rw [merge_trunc_variantD n a hlen j (by omega)]
    simp only [Option.bind]
    have harr : j + (k + 1) = (j + 1) + k := by omega
    rw [harr]
    exact mergeAll_range' n a hlen k (j + 1) (by omega)

/-- Claim C2: for every nested document with markers at any depth (including
inside sequence elements) whose marked integers lie in the field's domain,
and every node count n ≥ 2, unifying the n variants produced by allotment
returns exactly the original document, and every non-marked field (nulls
included, which pass through unsplit) is copied verbatim into all n
variants. -/
theorem c2_unify_allot_roundtrip (n : Nat) (s : Nat → Nat) (d : JDoc Prim) (off : Nat)
    (hn : 2 ≤ n) (hin : docInRange d = true) :
    unify n (variantsOf n s d off) = some d ∧
      ∀ i : Nat, scrubDoc (allotVariant i (allotDoc n s d off).1) = scrubDoc d := by
  have hlen := allot_secretsLenD n s (by omega) d off
  constructor
  · have hrange : List.range n = 0 :: List.range' 1 (n - 1) := by
      rw [List.range_eq_range']
      cases n with
      | zero => omega
      | succ m =>
        rw [List.range'_succ]
        simp
    rw [variantsOf, hrange, List.map_cons]
    simp only [unify, injDoc, allotVariant]
    rw [inj_variant0D n (by omega) (allotDoc n s d off).1 hlen]
    rw [mergeAll_range' n (allotDoc n s d off).1 hlen (n - 1) 1 (by omega)]
    simp only [Option.bind]
    have h1 : 1 + (n - 1) = n := by omega
    rw [h1, trunc_idD n (allotDoc n s d off).1 hlen]
    exact finalize_allotD n s hn d off hin
  · intro i
    simp only [scrubDoc, allotVariant]
    exact scrub_variantD n s i d off

/-- Witness for C2: the survey document — markers at depth 0, depth 2 and
inside a sequence, plus verbatim plain fields and nulls — allotted across 3
nodes unifies back to the original document, and variant 1 carries all
non-marked fields verbatim. -/
theorem c2_unify_allot_roundtrip_witness :
    unify 3 (variantsOf 3 (fun i => i * 13 + 2) sampleDoc 0) = some sampleDoc ∧
      scrubDoc (allotVariant 1 (allotDoc 3 (fun i => i * 13 + 2) sampleDoc 0).1) =
        scrubDoc sampleDoc :=
  ⟨(c2_unify_allot_roundtrip 3 (fun i => i * 13 + 2) sampleDoc 0 (by norm_num) rfl).1,
    (c2_unify_allot_roundtrip 3 (fun i => i * 13 + 2) sampleDoc 0 (by norm_num) rfl).2 1⟩
